import Mathlib

/-!
Memory-topology resolution of the `arm-generic-fdt2` machine.

A shallow embedding of `hw/arm/arm_generic_fdt2.c`: the two functions
`init_memory` and `arm_generic_fdt_init`, over a flattened-device-tree model
of the accessor functions they call.

Machine integers are natural numbers / integers with explicit reductions
modulo `2^32` and `2^64` at the places where the C types force them.
-/

namespace ArmGenericFdt

/-! ## Data model -/

/-- A node path, one string per component: `/memory@0` is `["memory@0"]`,
the root `/` is `[]`. -/
abbrev NodePath := List String

/-- One node of the flattened tree. `props` holds the cell-valued properties
(big-endian 32-bit words, already converted to host order). -/
structure FdtNode where
  path : NodePath
  compatible : List String
  phandle : Nat
  props : List (String × List Nat)
deriving DecidableEq, Repr

/-- The device tree blob seen as the sequence of its nodes below the root, in
blob order. The root has node offset `0`; entry `k` of the list has the
positive node offset `k + 1`. -/
abbrev Fdt := List FdtNode

/-- Depth of a node: number of path components (root is 0). -/
def FdtNode.depth (n : FdtNode) : Int := n.path.length

/-- Unit name of a node: the last path component. -/
def FdtNode.name (n : FdtNode) : String := n.path.getLastD ""

/-- Conversion to `uint32_t`. -/
def to_uint32 (x : Int) : Nat := (x % 4294967296).toNat

/-- Conversion of a `uint32_t` value to `int` (two's complement). -/
def to_int (x : Nat) : Int :=
  if x % 4294967296 < 2147483648 then (x % 4294967296 : Nat)
  else ((x % 4294967296 : Nat) : Int) - 4294967296

/-- Conversion to `uint64_t`. -/
def to_uint64 (x : Nat) : Nat := x % 18446744073709551616

/-! ## Tree accessors

These functions are declared in `libfdt.h` and `hw/fdt_generic_util.h`; their
bodies are not part of the source file. -/

/-- Modelled from the spec: `libfdt` node lookup by offset, missing from the
source. Offset `0` is the root, which is not stored in the list. -/
def fdt_node_at (fdt : Fdt) (offset : Int) : Option FdtNode :=
  if offset ≤ 0 then none else fdt[(offset - 1).toNat]?

/-- Modelled from the spec: `node_depth(tree, path) -> int`, missing from the
source. The root has depth 0; a bad offset gives `-FDT_ERR_BADOFFSET`. -/
def fdt_node_depth (fdt : Fdt) (offset : Int) : Int :=
  if offset = 0 then 0
  else match fdt_node_at fdt offset with
    | some n => n.depth
    | none => -4

/-- Modelled from the spec: `path_of(tree, node_ref) -> string`, missing from
the source. -/
def fdt_get_path (fdt : Fdt) (offset : Int) : NodePath :=
  match fdt_node_at fdt offset with
  | some n => n.path
  | none => []

/-- Modelled from the spec: path resolution used by the `qemu_fdt_*`
accessors, missing from the source: the first node carrying the path. -/
def findnode (fdt : Fdt) (path : NodePath) : Option FdtNode :=
  fdt.find? (fun n => decide (n.path = path))

/-- Cell `idx` of property `prop` of a node, `0` when the property or the
cell is absent. -/
def FdtNode.cell (n : FdtNode) (prop : String) (idx : Nat) : Nat :=
  match n.props.lookup prop with
  | some cells => (cells.getD idx 0) % 4294967296
  | none => 0

/-- Modelled from the spec: `get_property(tree, path, name, index) -> uint32`,
a single-cell read by index with default value `0`, missing from the
source. -/
def qemu_fdt_getprop_cell (fdt : Fdt) (path : NodePath) (prop : String)
    (idx : Nat) : Nat :=
  match findnode fdt path with
  | some n => n.cell prop idx
  | none => 0

/-- Modelled from the spec: `resolve_handle(tree, path) -> Handle`, missing
from the source; `0` when the node carries no handle. -/
def qemu_fdt_get_phandle (fdt : Fdt) (path : NodePath) : Nat :=
  match findnode fdt path with
  | some n => n.phandle % 4294967296
  | none => 0

/-- First index `i ≥ base` (counting the head of the list as `base`) of a
node satisfying `p`. -/
def find_index_from (p : FdtNode → Bool) : List FdtNode → Nat → Option Nat
  | [], _ => none
  | n :: ns, base => if p n then some base else find_index_from p ns (base + 1)

/-- A node is tagged with a compatible string. -/
def FdtNode.is_compatible (compat : String) (n : FdtNode) : Bool :=
  decide (compat ∈ n.compatible)

/-- Modelled from the spec: `find_nodes_by_tag(tree, tag, cursor)`, the
resumable iterator `fdt_node_offset_by_compatible`, missing from the source:
the offset of the first tagged node after `startoffset`, or
`-FDT_ERR_NOTFOUND`. -/
def fdt_node_offset_by_compatible (fdt : Fdt) (startoffset : Int)
    (compat : String) : Int :=
  if startoffset < 0 then -1
  else match find_index_from (FdtNode.is_compatible compat)
      (fdt.drop startoffset.toNat) (startoffset.toNat + 1) with
    | some i => (i : Int)
    | none => -1

/-- The canonical naming pattern: `cmpname` or `cmpname@<addr>`. -/
def name_matches (cmpname : String) (name : String) : Bool :=
  decide (name = cmpname) || (cmpname.data ++ ['@']).isPrefixOf name.data

/-- Modelled from the spec: `find_node_by_name(tree, name) -> NodePath?`,
missing from the source: the path of the first node whose name matches the
pattern. In C the function returns `0` and fills `node_path` on success and
returns non-zero on failure. -/
def qemu_devtree_get_node_by_name (fdt : Fdt) (cmpname : String) :
    Option NodePath :=
  (fdt.find? (fun n => name_matches cmpname n.name)).map FdtNode.path

/-- Modelled from the spec: `add_node(tree, path)`, missing from the source:
the new, empty node becomes the first child of its parent. The source only
adds a child of the root, which then is the first node after the root. -/
def qemu_fdt_add_subnode (fdt : Fdt) (path : NodePath) : Fdt :=
  { path := path, compatible := [], phandle := 0, props := [] } :: fdt

/-- Replace property `prop` of a node. -/
def FdtNode.setprop (n : FdtNode) (prop : String) (cells : List Nat) :
    FdtNode :=
  { n with props := (prop, cells) :: n.props.filter (fun kv => kv.1 != prop) }

/-- Set a property on the first node carrying `path`. -/
def setprop_at (path : NodePath) (prop : String) (cells : List Nat) :
    List FdtNode → List FdtNode
  | [] => []
  | n :: ns =>
    if n.path = path then n.setprop prop cells :: ns
    else n :: setprop_at path prop cells ns

/-- Modelled from the spec: `set_property(tree, path, name, values)`, missing
from the source. The macro stores its arguments in a `uint32_t` array, so
every value is reduced to 32 bits. -/
def qemu_fdt_setprop_cells (fdt : Fdt) (path : NodePath) (prop : String)
    (values : List Nat) : Fdt :=
  setprop_at path prop (values.map (fun v => v % 4294967296)) fdt

/-! ## Collaborator calls -/

/-- The calls `init_memory` makes to its collaborators, in program order. The
iterator call records its cursor and the offset it returned. -/
inductive Call where
  | qemu_devtree_get_node_by_name (cmpname : String)
  | qemu_fdt_add_subnode (path : NodePath)
  | qemu_fdt_setprop_cells (path : NodePath) (prop : String) (values : List Nat)
  | fdt_generic_create_machine
  | fdt_node_offset_by_compatible (startoffset : Int) (compat : String)
      (result : Int)
  | fdt_node_depth (offset : Int)
  | fdt_get_path (offset : Int)
  | qemu_fdt_getprop_cell (path : NodePath) (prop : String) (idx : Nat)
  | qemu_fdt_get_phandle (path : NodePath)
  | error_report (msg : String)
  | qemu_opt_set_number (group : String) (name : String) (value : Nat)
  | fdt_init_destroy_fdti
deriving DecidableEq, Repr

/-- Calls made by the find-or-create loop (lines 62-65). -/
def Call.is_normalize : Call → Bool
  | .qemu_devtree_get_node_by_name _ => true
  | .qemu_fdt_add_subnode _ => true
  | .qemu_fdt_setprop_cells _ _ _ => true
  | _ => false

/-- Tree reads made by the scan loop (lines 77-121). -/
def Call.is_scan_read : Call → Bool
  | .fdt_node_offset_by_compatible _ _ _ => true
  | .fdt_node_depth _ => true
  | .fdt_get_path _ => true
  | .qemu_fdt_getprop_cell _ _ _ => true
  | .qemu_fdt_get_phandle _ => true
  | _ => false

/-- Calls made by reconciliation (lines 123-132). -/
def Call.is_reconcile : Call → Bool
  | .error_report _ => true
  | .qemu_opt_set_number _ _ _ => true
  | _ => false

/-! ## `init_memory` -/

/-- Lines 103-107: `reg_value = cell0; reg_value <<= 32; reg_value += cell1`
in a `uint64_t`. -/
def reg_address (word0 word1 : Nat) : Nat :=
  to_uint64 (to_uint64 (to_uint64 word0 <<< 32) + word1)

/-- Lines 103-112: the address followed by `reg_value += cell2`. -/
def reg_extent (word0 word1 word2 : Nat) : Nat :=
  to_uint64 (reg_address word0 word1 + word2)

/-- Lines 62-65: `while (get_node_by_name(...)) { add_subnode; setprop }`.
The result is the tree, the `node_path` filled by the successful search, and
the calls made; `none` when the fuel is used up before the search
succeeds. -/
def ensure_loop : Nat → Fdt → Nat → Option (Fdt × NodePath × List Call)
  | 0, _, _ => none
  | fuel + 1, fdt, ram_size =>
    match qemu_devtree_get_node_by_name fdt "memory" with
    | some node_path => some (fdt, node_path, [Call.qemu_devtree_get_node_by_name "memory"])
    | none =>
      let fdt1 := qemu_fdt_add_subnode fdt ["memory@0"]
      let fdt2 := qemu_fdt_setprop_cells fdt1 ["memory@0"] "reg" [0, ram_size]
      (ensure_loop fuel fdt2 ram_size).map fun r =>
        (r.1, r.2.1,
          [Call.qemu_devtree_get_node_by_name "memory", Call.qemu_fdt_add_subnode ["memory@0"],
            Call.qemu_fdt_setprop_cells ["memory@0"] "reg" [0, ram_size]] ++ r.2.2)

/-- Lines 78-120: one pass through the body of the `do ... while` loop.
Returns the new `mem_offset`, the new `mem_created` and the calls made. -/
def scan_step (fdt : Fdt) (node_path : NodePath) (mem_offset : Int)
    (mem_created : Nat) : Int × Nat × List Call :=
  let off := fdt_node_offset_by_compatible fdt mem_offset "qemu:memory-region"
  let t0 := [Call.fdt_node_offset_by_compatible mem_offset "qemu:memory-region" off]
  if off > 0 then
    if fdt_node_depth fdt off = 1 then
      let mem_node_path := fdt_get_path fdt off
      let mem_container : Int :=
        to_int (qemu_fdt_getprop_cell fdt mem_node_path "container" 0)
      let t1 := t0 ++ [Call.fdt_node_depth off, Call.fdt_get_path off,
        Call.qemu_fdt_getprop_cell mem_node_path "container" 0,
        Call.qemu_fdt_get_phandle node_path]
      if to_uint32 mem_container ≠ qemu_fdt_get_phandle fdt node_path then
        (off, mem_created, t1)
      else
        let reg_value := reg_extent
          (qemu_fdt_getprop_cell fdt mem_node_path "reg" 0)
          (qemu_fdt_getprop_cell fdt mem_node_path "reg" 1)
          (qemu_fdt_getprop_cell fdt mem_node_path "reg" 2)
        let t2 := t1 ++ [Call.qemu_fdt_getprop_cell mem_node_path "reg" 0,
          Call.qemu_fdt_getprop_cell mem_node_path "reg" 1,
          Call.qemu_fdt_getprop_cell mem_node_path "reg" 2]
        (off, if mem_created < reg_value then reg_value else mem_created, t2)
    else (off, mem_created, t0 ++ [Call.fdt_node_depth off])
  else (off, mem_created, t0)

/-- Lines 77-121: the `do ... while (mem_offset > 0)` loop; `none` when the
fuel is used up before the iterator is exhausted. -/
def scan_loop (fdt : Fdt) (node_path : NodePath) :
    Nat → Int → Nat → Option (Nat × List Call)
  | 0, _, _ => none
  | fuel + 1, mem_offset, mem_created =>
    let r := scan_step fdt node_path mem_offset mem_created
    if r.1 > 0 then
      (scan_loop fdt node_path fuel r.1 r.2.1).map fun s => (s.1, r.2.2 ++ s.2)
    else some (r.2.1, r.2.2)

/-- Lines 59, 73-121: the extent scan, started with `mem_offset = 0` and
`mem_created = 0`. One iteration per node plus the final, failing iterator
call. -/
def scan_top_level_memory (fdt : Fdt) (node_path : NodePath) :
    Option (Nat × List Call) :=
  scan_loop fdt node_path (fdt.length + 1) 0 0

/-- Lines 123-132: report when the tree backs less than requested, then set
the `size` option of the `memory` option group. Returns the error messages,
the published size and the calls made. -/
def reconcile (mem_created ram_size : Nat) :
    List String × Option Nat × List Call :=
  let msg := "Error: Not enough memory was specified in the device-tree"
  let errs := if mem_created < ram_size then [msg] else []
  (errs, some mem_created,
    errs.map Call.error_report ++
      [Call.qemu_opt_set_number "memory" "size" mem_created])

/-- What `init_memory` leaves behind. -/
structure Outcome where
  fdt : Fdt
  node_path : NodePath
  mem_created : Nat
  errors : List String
  published : Option Nat
  trace : List Call
deriving DecidableEq, Repr

/-- The function `init_memory` (lines 55-135). The parameter
`fdt_generic_create_machine` is the effect of that call on the tree:
components may register further
nodes while they are constructed. -/
def init_memory (fdt_generic_create_machine : Fdt → Fdt) (fdt : Fdt) (ram_size : Nat) :
    Option Outcome :=
  match ensure_loop 2 fdt ram_size with
  | none => none
  | some (fdt1, node_path, t_norm) =>
    let fdt2 := fdt_generic_create_machine fdt1
    match scan_top_level_memory fdt2 node_path with
    | none => none
    | some (mem_created, t_scan) =>
      let r := reconcile mem_created ram_size
      some { fdt := fdt2, node_path := node_path, mem_created := mem_created,
             errors := r.1, published := r.2.1,
             trace := t_norm ++ [Call.fdt_generic_create_machine] ++ t_scan ++ r.2.2 ++
               [Call.fdt_init_destroy_fdti] }

/-! ## `arm_generic_fdt_init` -/

/-- What `arm_generic_fdt_init` does, in program order. -/
inductive InitStep where
  | error_report (msg : String)
  | exit (status : Nat)
  | init_memory (fdt : Option Fdt) (ram_size : Nat)
deriving DecidableEq, Repr

/-- The function `arm_generic_fdt_init` (lines 137-157). `hw_dtb_arg` is the
value of the `hw-dtb` machine option and `load_device_tree` the loader; a
`NULL` tree is `none`. -/
def arm_generic_fdt_init (hw_dtb_arg : Option String)
    (load_device_tree : String → Option Fdt) (ram_size : Nat) :
    List InitStep :=
  match hw_dtb_arg with
  | some arg =>
    match load_device_tree arg with
    | none =>
      [InitStep.error_report ("Error: Unable to load Device Tree " ++ arg),
        InitStep.exit 1]
    | some fdt => [InitStep.init_memory (some fdt) ram_size]
  | none =>
    [InitStep.error_report
        "Error: Unable to load Device Tree, the option hw-dtb must be specified",
      InitStep.init_memory none ram_size]

/-! ## Specification-side vocabulary -/

/-- Every path names at most one node. -/
def paths_unique (fdt : Fdt) : Prop := (fdt.map FdtNode.path).Nodup

instance (fdt : Fdt) : Decidable (paths_unique fdt) := by
  unfold paths_unique; infer_instance

/-- The `container` cell of a node (0 when absent). -/
def FdtNode.container (n : FdtNode) : Nat := n.cell "container" 0

/-- The extent `address + size` decoded from the `reg` cells of a node, as
the 64-bit accumulator holds it. -/
def FdtNode.extent (n : FdtNode) : Nat :=
  reg_extent (n.cell "reg" 0) (n.cell "reg" 1) (n.cell "reg" 2)

/-- A qualifying region: tagged `qemu:memory-region`, at depth exactly 1, and
with a container cell equal to the canonical node's handle. -/
def qualifies (handle : Nat) (n : FdtNode) : Bool :=
  n.is_compatible "qemu:memory-region" && decide (n.depth = 1) &&
    decide (n.container = handle)

/-- The running maximum of the extents of the qualifying regions of a list
of nodes, started from `acc`. -/
def aggregate (handle : Nat) : List FdtNode → Nat → Nat
  | [], acc => acc
  | n :: ns, acc =>
    aggregate handle ns
      (if qualifies handle n = true ∧ acc < n.extent then n.extent else acc)

/-- The offsets the iterator returned, in call order. -/
def iterator_results : List Call → List Int
  | [] => []
  | Call.fdt_node_offset_by_compatible _ _ r :: cs => r :: iterator_results cs
  | _ :: cs => iterator_results cs

/-- The offsets of the nodes tagged `compat`, in increasing order, the head
of the list having offset `base`. -/
def tagged_offsets (compat : String) : List FdtNode → Nat → List Int
  | [], _ => []
  | n :: ns, base =>
    if n.is_compatible compat then (base : Int) :: tagged_offsets compat ns (base + 1)
    else tagged_offsets compat ns (base + 1)

/-! ## Test trees -/

/-- The canonical node `/memory@0` with handle 1. -/
def node_memory : FdtNode :=
  { path := ["memory@0"], compatible := [], phandle := 1,
    props := [("reg", [0, 4096])] }

/-- A top-level region at address 0 of size 0x1000 inside container 1. -/
def region_a : FdtNode :=
  { path := ["region@0"], compatible := ["qemu:memory-region"], phandle := 0,
    props := [("container", [1]), ("reg", [0, 0, 4096])] }

/-- A top-level region at address 0x1000 of size 0x2000 inside container 1. -/
def region_b : FdtNode :=
  { path := ["region@1000"], compatible := ["qemu:memory-region"], phandle := 0,
    props := [("container", [1]), ("reg", [0, 4096, 8192])] }

/-- A top-level region inside another container (handle 2). -/
def region_other : FdtNode :=
  { path := ["region@9000"], compatible := ["qemu:memory-region"], phandle := 0,
    props := [("container", [2]), ("reg", [0, 36864, 8192])] }

/-- A nested region `/memory@0/region@0` (depth 2) inside container 1. -/
def region_nested : FdtNode :=
  { path := ["memory@0", "region@0"], compatible := ["qemu:memory-region"],
    phandle := 0, props := [("container", [1]), ("reg", [0, 65536, 4096])] }

/-- A top-level region without a `container` property. -/
def region_loose : FdtNode :=
  { path := ["region@0"], compatible := ["qemu:memory-region"], phandle := 0,
    props := [("reg", [0, 0, 4096])] }

/-- A top-level region whose extent does not fit in 64 bits. -/
def region_wrap : FdtNode :=
  { path := ["region@ffffffffffffffff"], compatible := ["qemu:memory-region"],
    phandle := 0,
    props := [("container", [1]), ("reg", [4294967295, 4294967295, 1])] }

/-- A tree with two qualifying regions, one of another container and a
nested one. -/
def sample_tree : Fdt :=
  [node_memory, region_nested, region_a, region_b, region_other]

/-- The tree produced by one pass through the body of the find-or-create
loop (lines 63-64). -/
def seed_tree (fdt : Fdt) (ram_size : Nat) : Fdt :=
  qemu_fdt_setprop_cells (qemu_fdt_add_subnode fdt ["memory@0"]) ["memory@0"]
    "reg" [0, ram_size]

/-- Number of passes through the body of the find-or-create loop: one
`add_subnode` call each. -/
def body_runs (tr : List Call) : Nat :=
  tr.countP fun c => match c with
    | Call.qemu_fdt_add_subnode _ => true
    | _ => false

/-- A tree whose only memory-named node is nested: `/soc/memory@0`. -/
def nested_memory_tree : Fdt :=
  [{ path := ["soc"], compatible := [], phandle := 0, props := [] },
    { path := ["soc", "memory@0"], compatible := [], phandle := 0,
      props := [("reg", [0, 4096])] }]

/-- A tree whose canonical node carries no handle and whose only region has
no `container` property. -/
def loose_tree : Fdt :=
  [{ path := ["memory@0"], compatible := [], phandle := 0,
      props := [("reg", [0, 4096])] },
    region_loose]

/-- A nested node `/soc/memory@0` (depth 2) that matches the memory naming
pattern, carries handle 1 and is itself tagged as a memory region. -/
def nested_canonical : FdtNode :=
  { path := ["soc", "memory@0"], compatible := ["qemu:memory-region"],
    phandle := 1, props := [("reg", [0, 0, 0])] }

/-- A tree whose canonical memory node is the nested, tagged
`/soc/memory@0`, with one top-level region inside container 1. -/
def nested_canonical_tree : Fdt :=
  [{ path := ["soc"], compatible := [], phandle := 0, props := [] },
    nested_canonical, region_a]

/-! ## Arithmetic of the machine words -/

theorem to_uint32_to_int (x : Nat) : to_uint32 (to_int x) = x % 4294967296 := by
  unfold to_uint32 to_int
  split <;> omega

theorem cell_lt (n : FdtNode) (prop : String) (idx : Nat) :
    n.cell prop idx < 4294967296 := by
  unfold FdtNode.cell
  split
  · exact Nat.mod_lt _ (by decide)
  · decide

theorem reg_address_eq (word0 word1 : Nat) (h0 : word0 < 4294967296)
    (h1 : word1 < 4294967296) :
    reg_address word0 word1 = word0 * 4294967296 + word1 := by
  unfold reg_address to_uint64
  rw [Nat.shiftLeft_eq]
  omega

theorem reg_extent_eq (word0 word1 word2 : Nat) (h0 : word0 < 4294967296)
    (h1 : word1 < 4294967296) :
    reg_extent word0 word1 word2 =
      (word0 * 4294967296 + word1 + word2) % 18446744073709551616 := by
  unfold reg_extent
  rw [reg_address_eq word0 word1 h0 h1]
  rfl

/-! ## The iterator -/

theorem find_index_from_none (p : FdtNode → Bool) :
    ∀ (l : List FdtNode) (b : Nat), find_index_from p l b = none →
      ∀ n ∈ l, p n = false := by
  intro l
  induction l with
  | nil => intro b _ n hn; cases hn
  | cons m ms ih =>
    intro b h n hn
    unfold find_index_from at h
    by_cases hp : p m = true
    · simp [hp] at h
    · simp [hp] at h
      rcases List.mem_cons.mp hn with rfl | hn
      · simpa using hp
      · exact ih (b + 1) h n hn

theorem find_index_from_some (p : FdtNode → Bool) :
    ∀ (l : List FdtNode) (b i : Nat), find_index_from p l b = some i →
      ∃ pre n post, l = pre ++ n :: post ∧ (∀ m ∈ pre, p m = false) ∧
        p n = true ∧ i = b + pre.length := by
  intro l
  induction l with
  | nil => intro b i h; simp [find_index_from] at h
  | cons m ms ih =>
    intro b i h
    unfold find_index_from at h
    by_cases hp : p m = true
    · simp [hp] at h
      exact ⟨[], m, ms, rfl, by simp, hp, by simp [h]⟩
    · simp [hp] at h
      obtain ⟨pre, n, post, hl, hpre, hn, hi⟩ := ih (b + 1) i h
      refine ⟨m :: pre, n, post, by simp [hl], ?_, hn, by simp [hi]; omega⟩
      intro x hx
      rcases List.mem_cons.mp hx with rfl | hx
      · simpa using hp
      · exact hpre x hx

theorem findnode_of_mem :
    ∀ (fdt : Fdt) (n : FdtNode), paths_unique fdt → n ∈ fdt →
      findnode fdt n.path = some n := by
  intro fdt
  induction fdt with
  | nil => intro n _ hn; cases hn
  | cons m ms ih =>
    intro n hu hn
    unfold paths_unique at hu
    simp only [List.map_cons, List.nodup_cons] at hu
    unfold findnode
    rcases List.mem_cons.mp hn with rfl | hn
    · simp [List.find?]
    · have hne : m.path ≠ n.path := by
        intro he
        exact hu.1 (he ▸ List.mem_map_of_mem FdtNode.path hn)
      simp only [List.find?, hne, decide_False]
      exact ih n hu.2 hn

theorem aggregate_untagged (handle : Nat) :
    ∀ (l : List FdtNode) (acc : Nat),
      (∀ n ∈ l, n.is_compatible "qemu:memory-region" = false) →
      aggregate handle l acc = acc := by
  intro l
  induction l with
  | nil => intro acc _; rfl
  | cons m ms ih =>
    intro acc h
    have hm : qualifies handle m = false := by
      simp [qualifies, h m (List.mem_cons_self _ _)]
    simp only [aggregate, hm, Bool.false_eq_true, false_and, if_false]
    exact ih acc (fun n hn => h n (List.mem_cons_of_mem _ hn))

theorem aggregate_append (handle : Nat) :
    ∀ (l₁ l₂ : List FdtNode) (acc : Nat),
      aggregate handle (l₁ ++ l₂) acc =
        aggregate handle l₂ (aggregate handle l₁ acc) := by
  intro l₁
  induction l₁ with
  | nil => intro l₂ acc; rfl
  | cons m ms ih =>
    intro l₂ acc
    rw [List.cons_append]
    simp only [aggregate]
    exact ih l₂ _

theorem node_at_of_drop (fdt : Fdt) (k : Nat) (pre post : List FdtNode)
    (n : FdtNode) (hd : fdt.drop k = pre ++ n :: post) :
    fdt_node_at fdt ((k + 1 + pre.length : Nat) : Int) = some n ∧ n ∈ fdt ∧
      fdt.drop (k + 1 + pre.length) = post ∧ k + 1 + pre.length ≤ fdt.length := by
  have hget : fdt[k + pre.length]? = some n := by
    have := @List.getElem?_drop _ fdt k pre.length
    rw [← this, hd, List.getElem?_append_right (Nat.le_refl _)]
    simp
  refine ⟨?_, ?_, ?_, ?_⟩
  · unfold fdt_node_at
    have h1 : ¬ (((k + 1 + pre.length : Nat) : Int) ≤ 0) := by omega
    have h2 : (((k + 1 + pre.length : Nat) : Int) - 1).toNat = k + pre.length := by omega
    simp only [h1, if_false, h2, hget]
  · exact List.getElem?_mem hget
  · have : fdt.drop (k + 1 + pre.length) = (fdt.drop k).drop (pre.length + 1) := by
      rw [List.drop_drop]; congr 1; omega
    rw [this, hd]
    simp
  · have := congrArg List.length hd
    simp at this
    omega

theorem getprop_cell_of_mem (fdt : Fdt) (n : FdtNode) (hu : paths_unique fdt)
    (hn : n ∈ fdt) (prop : String) (idx : Nat) :
    qemu_fdt_getprop_cell fdt n.path prop idx = n.cell prop idx := by
  unfold qemu_fdt_getprop_cell
  rw [findnode_of_mem fdt n hu hn]

theorem offset_by_compatible_nat (fdt : Fdt) (k : Nat) (compat : String) :
    fdt_node_offset_by_compatible fdt (k : Int) compat =
      match find_index_from (FdtNode.is_compatible compat) (fdt.drop k) (k + 1) with
      | some i => (i : Int)
      | none => -1 := by
  unfold fdt_node_offset_by_compatible
  have h : ¬ ((k : Int) < 0) := by omega
  simp only [h, if_false, Int.toNat_ofNat]

/-- The iterator is exhausted: the loop body does nothing. -/
theorem scan_step_none (fdt : Fdt) (node_path : NodePath) (k acc : Nat)
    (hf : find_index_from (FdtNode.is_compatible "qemu:memory-region")
      (fdt.drop k) (k + 1) = none) :
    scan_step fdt node_path (k : Int) acc =
      (-1, acc, [Call.fdt_node_offset_by_compatible (k : Int) "qemu:memory-region" (-1)]) := by
  unfold scan_step
  rw [offset_by_compatible_nat, hf]
  simp

/-- The iterator returns the next tagged node: the loop body folds it into
the running maximum when it qualifies. -/
theorem scan_step_some (fdt : Fdt) (node_path : NodePath) (k acc : Nat)
    (hu : paths_unique fdt) (pre post : List FdtNode) (n : FdtNode)
    (hd : fdt.drop k = pre ++ n :: post)
    (hf : find_index_from (FdtNode.is_compatible "qemu:memory-region")
      (fdt.drop k) (k + 1) = some (k + 1 + pre.length)) :
    ∃ tr, scan_step fdt node_path (k : Int) acc =
        (((k + 1 + pre.length : Nat) : Int),
          (if qualifies (qemu_fdt_get_phandle fdt node_path) n = true ∧
              acc < n.extent then n.extent else acc), tr) ∧
      (∀ c ∈ tr, c.is_scan_read = true) ∧
      iterator_results tr = [((k + 1 + pre.length : Nat) : Int)] := by
  obtain ⟨hat, hmem, _, _⟩ := node_at_of_drop fdt k pre post n hd
  have hpos : ((k + 1 + pre.length : Nat) : Int) > 0 := by omega
  have hne : ¬ (((k + 1 + pre.length : Nat) : Int) = 0) := by omega
  have hdepth : fdt_node_depth fdt ((k + 1 + pre.length : Nat) : Int) = n.depth := by
    unfold fdt_node_depth
    simp only [hne, if_false, hat]
  have hpath : fdt_get_path fdt ((k + 1 + pre.length : Nat) : Int) = n.path := by
    unfold fdt_get_path
    simp only [hat]
  have hcont : to_uint32 (to_int (n.cell "container" 0)) = n.container := by
    rw [to_uint32_to_int]
    exact Nat.mod_eq_of_lt (cell_lt n "container" 0)
  have htag : n.is_compatible "qemu:memory-region" = true := by
    obtain ⟨pre', n', post', hl, hpre', hn', hi⟩ :=
      find_index_from_some _ _ _ _ hf
    have hlen : pre'.length = pre.length := by omega
    have := List.append_inj (hd.symm.trans hl) hlen.symm
    have h2 := (List.cons.inj this.2).1
    rw [h2]; exact hn'
  unfold scan_step
  rw [offset_by_compatible_nat, hf]
  simp only [hpos, if_true, hdepth, hpath,
    getprop_cell_of_mem fdt n hu hmem, hcont]
  by_cases hd1 : n.depth = 1
  · by_cases hc : n.container = qemu_fdt_get_phandle fdt node_path
    · have hq : qualifies (qemu_fdt_get_phandle fdt node_path) n = true := by
        simp [qualifies, htag, hd1, hc]
      simp only [hd1, if_true, hc, ne_eq, not_true_eq_false, if_false, hq, true_and]
      refine ⟨_, rfl, ?_, ?_⟩
      · intro c hc'
        simp at hc'
        rcases hc' with h | h | h | h | h | h | h | h <;> subst h <;> rfl
      · rfl
    · have hq : qualifies (qemu_fdt_get_phandle fdt node_path) n = false := by
        simp [qualifies, hc]
      simp only [hd1, if_true, ne_eq, hc, not_false_eq_true, hq,
        Bool.false_eq_true, false_and, if_false]
      refine ⟨_, rfl, ?_, ?_⟩
      · intro c hc'
        simp at hc'
        rcases hc' with h | h | h | h | h <;> subst h <;> rfl
      · rfl
  · have hq : qualifies (qemu_fdt_get_phandle fdt node_path) n = false := by
      simp [qualifies, hd1]
    simp only [hd1, if_false, hq, Bool.false_eq_true, false_and]
    refine ⟨_, rfl, ?_, ?_⟩
    · intro c hc'
      simp at hc'
      rcases hc' with h | h <;> subst h <;> rfl
    · rfl

theorem iterator_results_append :
    ∀ (a b : List Call),
      iterator_results (a ++ b) = iterator_results a ++ iterator_results b := by
  intro a
  induction a with
  | nil => intro b; rfl
  | cons c cs ih =>
    intro b
    cases c <;> simp [iterator_results, ih]

theorem tagged_offsets_untagged (compat : String) :
    ∀ (l : List FdtNode) (b : Nat),
      (∀ n ∈ l, n.is_compatible compat = false) → tagged_offsets compat l b = [] := by
  intro l
  induction l with
  | nil => intro b _; rfl
  | cons m ms ih =>
    intro b h
    simp only [tagged_offsets, h m (List.mem_cons_self _ _), Bool.false_eq_true,
      if_false]
    exact ih (b + 1) (fun n hn => h n (List.mem_cons_of_mem _ hn))

theorem tagged_offsets_split (compat : String) :
    ∀ (pre : List FdtNode) (n : FdtNode) (post : List FdtNode) (b : Nat),
      (∀ m ∈ pre, m.is_compatible compat = false) →
      n.is_compatible compat = true →
      tagged_offsets compat (pre ++ n :: post) b =
        ((b + pre.length : Nat) : Int) ::
          tagged_offsets compat post (b + pre.length + 1) := by
  intro pre
  induction pre with
  | nil =>
    intro n post b _ hn
    simp [tagged_offsets, hn]
  | cons m ms ih =>
    intro n post b h hn
    rw [List.cons_append]
    simp only [tagged_offsets, h m (List.mem_cons_self _ _), Bool.false_eq_true,
      if_false]
    rw [ih n post (b + 1) (fun x hx => h x (List.mem_cons_of_mem _ hx)) hn]
    have : b + 1 + ms.length = b + (m :: ms).length := by simp; omega
    rw [this]

/-- Whatever the tree, one pass through the loop body moves the cursor to
the iterator's result and makes only tree reads. -/
theorem scan_step_shape (fdt : Fdt) (node_path : NodePath) (mem_offset : Int)
    (acc : Nat) :
    (scan_step fdt node_path mem_offset acc).1 =
        fdt_node_offset_by_compatible fdt mem_offset "qemu:memory-region" ∧
      (∀ c ∈ (scan_step fdt node_path mem_offset acc).2.2, c.is_scan_read = true) ∧
      iterator_results (scan_step fdt node_path mem_offset acc).2.2 =
        [fdt_node_offset_by_compatible fdt mem_offset "qemu:memory-region"] := by
  unfold scan_step
  simp only []
  split_ifs <;>
    simp [iterator_results, Call.is_scan_read]

/-- With enough fuel the scan loop started at cursor `k` returns, makes only
tree reads, and its iterator returns exactly the offsets of the tagged nodes
after `k`, in increasing order, followed by the failing `-1`. When paths are
unique the value returned is the running maximum over the nodes after `k`. -/
theorem scan_loop_spec (fdt : Fdt) (node_path : NodePath) :
    ∀ (fuel k acc : Nat), k ≤ fdt.length → fdt.length < fuel + k →
      ∃ v tr, scan_loop fdt node_path fuel (k : Int) acc = some (v, tr) ∧
        (∀ c ∈ tr, c.is_scan_read = true) ∧
        iterator_results tr =
          tagged_offsets "qemu:memory-region" (fdt.drop k) (k + 1) ++ [-1] ∧
        (paths_unique fdt →
          v = aggregate (qemu_fdt_get_phandle fdt node_path) (fdt.drop k) acc) := by
  intro fuel
  induction fuel with
  | zero => intro k acc h1 h2; omega
  | succ fuel ih =>
    intro k acc hk hfuel
    unfold scan_loop
    cases hf : find_index_from (FdtNode.is_compatible "qemu:memory-region")
        (fdt.drop k) (k + 1) with
    | none =>
      have hun := find_index_from_none _ _ _ hf
      rw [scan_step_none fdt node_path k acc hf]
      refine ⟨acc, [Call.fdt_node_offset_by_compatible (k : Int) "qemu:memory-region" (-1)],
        ?_, ?_, ?_, ?_⟩
      · simp
      · intro c hc
        simp at hc
        subst hc; rfl
      · rw [tagged_offsets_untagged _ _ _ hun]
        rfl
      · intro _
        rw [aggregate_untagged _ _ _ hun]
    | some i =>
      obtain ⟨pre, n, post, hd, hpre, hn, hi⟩ := find_index_from_some _ _ _ _ hf
      subst hi
      obtain ⟨hcur, hreads1, hres1⟩ := scan_step_shape fdt node_path (k : Int) acc
      rw [offset_by_compatible_nat, hf] at hcur hres1
      simp only [] at hcur hres1
      obtain ⟨_, _, hdrop, hlen⟩ := node_at_of_drop fdt k pre post n hd
      obtain ⟨v, tr2, hloop, hreads2, hres2, hval⟩ :=
        ih (k + 1 + pre.length) (scan_step fdt node_path (k : Int) acc).2.1 hlen
          (by omega)
      have hpos : ((k + 1 + pre.length : Nat) : Int) > 0 := by omega
      simp only [hcur, hpos, if_true, hloop, Option.map_some']
      refine ⟨v, (scan_step fdt node_path (k : Int) acc).2.2 ++ tr2, rfl, ?_, ?_, ?_⟩
      · intro c hc
        rcases List.mem_append.mp hc with h | h
        · exact hreads1 c h
        · exact hreads2 c h
      · rw [iterator_results_append, hres1, hres2, hd,
          tagged_offsets_split _ pre n post (k + 1) hpre hn, hdrop]
        rfl
      · intro hu
        obtain ⟨tr1, hstep, _, _⟩ :=
          scan_step_some fdt node_path k acc hu pre post n hd hf
        rw [hval hu, hstep, hd, aggregate_append, aggregate_untagged _ _ _ hpre,
          hdrop]
        rfl

/-- The extent scan always returns: the fuel it is given is enough. -/
theorem scan_spec (fdt : Fdt) (node_path : NodePath) :
    ∃ v tr, scan_top_level_memory fdt node_path = some (v, tr) ∧
      (∀ c ∈ tr, c.is_scan_read = true) ∧
      iterator_results tr = tagged_offsets "qemu:memory-region" fdt 1 ++ [-1] ∧
      (paths_unique fdt →
        v = aggregate (qemu_fdt_get_phandle fdt node_path) fdt 0) := by
  have := scan_loop_spec fdt node_path (fdt.length + 1) 0 0 (Nat.zero_le _)
    (by omega)
  simpa [scan_top_level_memory] using this

/-! ## The running maximum -/

theorem aggregate_ge_acc (handle : Nat) :
    ∀ (l : List FdtNode) (acc : Nat), acc ≤ aggregate handle l acc := by
  intro l
  induction l with
  | nil => intro acc; exact Nat.le_refl _
  | cons m ms ih =>
    intro acc
    simp only [aggregate]
    split
    · rename_i h; exact Nat.le_trans (Nat.le_of_lt h.2) (ih _)
    · exact ih _

theorem aggregate_upper (handle : Nat) :
    ∀ (l : List FdtNode) (acc : Nat) (n : FdtNode), n ∈ l →
      qualifies handle n = true → n.extent ≤ aggregate handle l acc := by
  intro l
  induction l with
  | nil => intro acc n hn; cases hn
  | cons m ms ih =>
    intro acc n hn hq
    simp only [aggregate]
    rcases List.mem_cons.mp hn with rfl | hn
    · split
      · exact aggregate_ge_acc handle ms _
      · rename_i h
        have : n.extent ≤ acc := by
          by_contra hlt
          exact h ⟨hq, by omega⟩
        exact Nat.le_trans this (aggregate_ge_acc handle ms _)
    · exact ih _ n hn hq

theorem aggregate_attained (handle : Nat) :
    ∀ (l : List FdtNode) (acc : Nat),
      aggregate handle l acc = acc ∨
        ∃ n ∈ l, qualifies handle n = true ∧ aggregate handle l acc = n.extent := by
  intro l
  induction l with
  | nil => intro acc; exact Or.inl rfl
  | cons m ms ih =>
    intro acc
    simp only [aggregate]
    split
    · rename_i h
      rcases ih m.extent with h1 | ⟨n, hn, hq, he⟩
      · exact Or.inr ⟨m, List.mem_cons_self _ _, h.1, h1⟩
      · exact Or.inr ⟨n, List.mem_cons_of_mem _ hn, hq, he⟩
    · rcases ih acc with h1 | ⟨n, hn, hq, he⟩
      · exact Or.inl h1
      · exact Or.inr ⟨n, List.mem_cons_of_mem _ hn, hq, he⟩

theorem aggregate_skip (handle : Nat) (pre post : List FdtNode) (n : FdtNode)
    (acc : Nat) (hq : qualifies handle n = false) :
    aggregate handle (pre ++ n :: post) acc = aggregate handle (pre ++ post) acc := by
  rw [aggregate_append, aggregate_append]
  simp [aggregate, hq]

theorem aggregate_perm (handle : Nat) {l₁ l₂ : List FdtNode} (hp : l₁.Perm l₂) :
    ∀ acc : Nat, aggregate handle l₁ acc = aggregate handle l₂ acc := by
  induction hp with
  | nil => intro acc; rfl
  | cons x _ ih => intro acc; simp only [aggregate]; exact ih _
  | swap x y l =>
    intro acc
    simp only [aggregate]
    congr 1
    have key : ∀ (a e : Nat) (q : Prop) [Decidable q],
        (if q ∧ a < e then e else a) = if q then max a e else a := by
      intro a e q _
      by_cases hq : q <;> simp only [hq, true_and, false_and, if_true, if_false]
      split_ifs <;> omega
    simp only [key]
    cases qualifies handle x <;> cases qualifies handle y
    all_goals simp only [Bool.false_eq_true, if_true, if_false]
    all_goals omega
  | trans _ _ ih₁ ih₂ => intro acc; rw [ih₁, ih₂]

/-! ## Path resolution under edits of the tree -/

theorem scan_value (fdt : Fdt) (node_path : NodePath) (hu : paths_unique fdt) :
    (scan_top_level_memory fdt node_path).map Prod.fst =
      some (aggregate (qemu_fdt_get_phandle fdt node_path) fdt 0) := by
  obtain ⟨v, tr, hscan, _, _, hval⟩ := scan_spec fdt node_path
  rw [hscan, hval hu]
  rfl

theorem paths_unique_remove (pre post : List FdtNode) (n : FdtNode)
    (hu : paths_unique (pre ++ n :: post)) : paths_unique (pre ++ post) := by
  unfold paths_unique at *
  refine List.Nodup.sublist ?_ hu
  exact List.Sublist.map _ (List.Sublist.append_left (List.sublist_cons_self n post) pre)

theorem paths_unique_replace (pre post : List FdtNode) (n n' : FdtNode)
    (hpath : n'.path = n.path) (hu : paths_unique (pre ++ n :: post)) :
    paths_unique (pre ++ n' :: post) := by
  unfold paths_unique at *
  simpa [hpath] using hu

theorem findnode_remove (pre post : List FdtNode) (n : FdtNode) (path : NodePath)
    (hne : n.path ≠ path) :
    findnode (pre ++ n :: post) path = findnode (pre ++ post) path := by
  unfold findnode
  simp [List.find?_append, List.find?_cons, hne]

theorem get_phandle_remove (pre post : List FdtNode) (n : FdtNode)
    (path : NodePath) (hne : n.path ≠ path) :
    qemu_fdt_get_phandle (pre ++ n :: post) path =
      qemu_fdt_get_phandle (pre ++ post) path := by
  unfold qemu_fdt_get_phandle
  rw [findnode_remove pre post n path hne]

theorem get_phandle_replace (pre post : List FdtNode) (n n' : FdtNode)
    (path : NodePath) (hpath : n'.path = n.path) (hph : n'.phandle = n.phandle) :
    qemu_fdt_get_phandle (pre ++ n' :: post) path =
      qemu_fdt_get_phandle (pre ++ n :: post) path := by
  unfold qemu_fdt_get_phandle findnode
  simp only [List.find?_append, List.find?_cons, hpath]
  cases pre.find? (fun m => decide (m.path = path)) with
  | some m => rfl
  | none =>
    by_cases hp : n.path = path
    · simp [hp, hph]
    · simp [hp]

theorem findnode_perm (fdt fdt' : Fdt) (path : NodePath) (hu : paths_unique fdt)
    (hp : fdt.Perm fdt') : findnode fdt path = findnode fdt' path := by
  have hu' : paths_unique fdt' := by
    unfold paths_unique at *
    exact (List.Perm.nodup_iff (hp.map _)).mp hu
  cases h : findnode fdt path with
  | some n =>
    unfold findnode at h
    have hmem := List.mem_of_find?_eq_some h
    have hpath : n.path = path := by simpa using List.find?_some h
    rw [← hpath]
    exact (findnode_of_mem fdt' n hu' (hp.subset hmem)).symm
  | none =>
    unfold findnode at h ⊢
    rw [List.find?_eq_none] at h
    symm
    rw [List.find?_eq_none]
    intro m hm
    exact h m (hp.symm.subset hm)

/-! ## The find-or-create loop and the whole function -/

theorem seed_tree_eq (fdt : Fdt) (ram_size : Nat) :
    seed_tree fdt ram_size =
      { path := ["memory@0"], compatible := [], phandle := 0,
        props := [("reg", [0, ram_size % 4294967296])] } :: fdt := by
  simp [seed_tree, qemu_fdt_setprop_cells, qemu_fdt_add_subnode, setprop_at,
    FdtNode.setprop]

theorem get_node_by_name_seed_tree (fdt : Fdt) (ram_size : Nat) :
    qemu_devtree_get_node_by_name (seed_tree fdt ram_size) "memory" =
      some ["memory@0"] := by
  rw [seed_tree_eq]
  have h : name_matches "memory" "memory@0" = true := by decide
  simp [qemu_devtree_get_node_by_name, List.find?, FdtNode.name, h]

/-- A matching node exists: the loop condition fails at once. -/
theorem ensure_loop_found (fuel : Nat) (fdt : Fdt) (ram_size : Nat)
    (p : NodePath) (h : qemu_devtree_get_node_by_name fdt "memory" = some p) :
    ensure_loop (fuel + 1) fdt ram_size =
      some (fdt, p, [Call.qemu_devtree_get_node_by_name "memory"]) := by
  simp [ensure_loop, h]

/-- No matching node exists: the body runs once and the second search
succeeds. -/
theorem ensure_loop_created (fuel : Nat) (fdt : Fdt) (ram_size : Nat)
    (h : qemu_devtree_get_node_by_name fdt "memory" = none) :
    ensure_loop (fuel + 2) fdt ram_size =
      some (seed_tree fdt ram_size, ["memory@0"],
        [Call.qemu_devtree_get_node_by_name "memory", Call.qemu_fdt_add_subnode ["memory@0"],
          Call.qemu_fdt_setprop_cells ["memory@0"] "reg" [0, ram_size],
          Call.qemu_devtree_get_node_by_name "memory"]) := by
  have h2 := ensure_loop_found fuel (seed_tree fdt ram_size) ram_size ["memory@0"]
    (get_node_by_name_seed_tree fdt ram_size)
  rw [ensure_loop]
  simp only [h]
  unfold seed_tree at h2
  rw [h2]
  rfl

/-- The find-or-create loop always exits, with a tree in which the search
succeeds and yields the returned path, and makes only normalizer calls. -/
theorem ensure_loop_spec (fuel : Nat) (fdt : Fdt) (ram_size : Nat) :
    ∃ fdt1 p tr, ensure_loop (fuel + 2) fdt ram_size = some (fdt1, p, tr) ∧
      qemu_devtree_get_node_by_name fdt1 "memory" = some p ∧
      (∀ c ∈ tr, c.is_normalize = true) := by
  cases h : qemu_devtree_get_node_by_name fdt "memory" with
  | some p =>
    refine ⟨fdt, p, _, ensure_loop_found (fuel + 1) fdt ram_size p h, h, ?_⟩
    intro c hc
    simp at hc
    subst hc; rfl
  | none =>
    refine ⟨_, _, _, ensure_loop_created fuel fdt ram_size h,
      get_node_by_name_seed_tree fdt ram_size, ?_⟩
    intro c hc
    simp at hc
    rcases hc with h | h | h | h <;> subst h <;> rfl

theorem reconcile_calls (mem_created ram_size : Nat) :
    ∀ c ∈ (reconcile mem_created ram_size).2.2, c.is_reconcile = true := by
  intro c hc
  unfold reconcile at hc
  simp only [List.mem_append, List.mem_map, List.mem_singleton] at hc
  rcases hc with ⟨m, _, rfl⟩ | rfl <;> rfl

/-- The function `init_memory` always returns, and its calls are: the
normalizer calls, the session open, the reads of the scan, the calls of the
reconciliation, the session close. -/
theorem init_memory_spec (fdt_generic_create_machine : Fdt → Fdt) (fdt : Fdt)
    (ram_size : Nat) :
    ∃ fdt1 p t_norm v t_scan,
      ensure_loop 2 fdt ram_size = some (fdt1, p, t_norm) ∧
      scan_top_level_memory (fdt_generic_create_machine fdt1) p = some (v, t_scan) ∧
      init_memory fdt_generic_create_machine fdt ram_size =
        some { fdt := fdt_generic_create_machine fdt1, node_path := p, mem_created := v,
               errors := (reconcile v ram_size).1,
               published := (reconcile v ram_size).2.1,
               trace := t_norm ++ [Call.fdt_generic_create_machine] ++ t_scan ++
                 (reconcile v ram_size).2.2 ++ [Call.fdt_init_destroy_fdti] } ∧
      (∀ c ∈ t_norm, c.is_normalize = true) ∧
      (∀ c ∈ t_scan, c.is_scan_read = true) := by
  obtain ⟨fdt1, p, t_norm, hens, _, hnorm⟩ := ensure_loop_spec 0 fdt ram_size
  obtain ⟨v, t_scan, hscan, hreads, _, _⟩ :=
    scan_spec (fdt_generic_create_machine fdt1) p
  refine ⟨fdt1, p, t_norm, v, t_scan, hens, hscan, ?_, hnorm, hreads⟩
  unfold init_memory
  simp only [Nat.zero_add] at hens
  rw [hens]
  simp only [hscan]

theorem count_eq_zero_of_all {P : Call → Bool} (l : List Call) (a : Call)
    (hall : ∀ c ∈ l, P c = true) (ha : P a = false) : l.count a = 0 := by
  rw [List.count_eq_zero]
  intro hmem
  rw [hall a hmem] at ha
  cases ha

/-! ## Order of the calls and of the visited offsets -/

theorem open_before_read (a rest : List Call)
    (ha : ∀ c ∈ a, c.is_scan_read = false) :
    ∀ (pre post : List Call) (c : Call),
      a ++ Call.fdt_generic_create_machine :: rest = pre ++ c :: post →
      c.is_scan_read = true → Call.fdt_generic_create_machine ∈ pre := by
  induction a with
  | nil =>
    intro pre post c heq hc
    cases pre with
    | nil =>
      simp only [List.nil_append, List.cons.injEq] at heq
      rw [← heq.1] at hc
      cases hc
    | cons x xs =>
      simp only [List.nil_append, List.cons_append, List.cons.injEq] at heq
      rw [← heq.1]
      exact List.mem_cons_self _ _
  | cons y ys ih =>
    intro pre post c heq hc
    cases pre with
    | nil =>
      simp only [List.nil_append, List.cons_append, List.cons.injEq] at heq
      have := ha y (List.mem_cons_self _ _)
      rw [heq.1, hc] at this
      cases this
    | cons x xs =>
      simp only [List.cons_append, List.cons.injEq] at heq
      exact List.mem_cons_of_mem _
        (ih (fun c hc => ha c (List.mem_cons_of_mem _ hc)) xs post c heq.2 hc)

theorem close_after_read (m pre post : List Call) (c d : Call)
    (heq : m ++ [d] = pre ++ c :: post) (hne : c ≠ d) : d ∈ post := by
  have hrev := congrArg List.reverse heq
  simp only [List.reverse_append, List.reverse_cons, List.reverse_nil,
    List.nil_append, List.singleton_append, List.append_assoc] at hrev
  cases hp : post.reverse with
  | nil =>
    rw [hp] at hrev
    simp only [List.nil_append, List.cons.injEq] at hrev
    exact absurd hrev.1.symm hne
  | cons x xs =>
    rw [hp] at hrev
    simp only [List.cons_append, List.cons.injEq] at hrev
    have : d ∈ post.reverse := by rw [hp, hrev.1]; exact List.mem_cons_self _ _
    exact List.mem_reverse.mp this

theorem tagged_offsets_mem (compat : String) :
    ∀ (l : List FdtNode) (b : Nat) (off : Int),
      off ∈ tagged_offsets compat l b ↔
        ∃ i n, l[i]? = some n ∧ n.is_compatible compat = true ∧
          off = ((b + i : Nat) : Int) := by
  intro l
  induction l with
  | nil => intro b off; simp [tagged_offsets]
  | cons m ms ih =>
    intro b off
    have hrest := ih (b + 1) off
    constructor
    · intro h
      have h' : (m.is_compatible compat = true ∧ off = (b : Int)) ∨
          off ∈ tagged_offsets compat ms (b + 1) := by
        unfold tagged_offsets at h
        split at h
        · rename_i hm
          rcases List.mem_cons.mp h with h | h
          · exact Or.inl ⟨hm, h⟩
          · exact Or.inr h
        · exact Or.inr h
      rcases h' with ⟨hm, ho⟩ | h'
      · exact ⟨0, m, by simp, hm, by simpa using ho⟩
      · obtain ⟨i, n, hi, hn, ho⟩ := hrest.mp h'
        refine ⟨i + 1, n, by simpa using hi, hn, ?_⟩
        rw [ho]; congr 1; omega
    · rintro ⟨i, n, hi, hn, ho⟩
      cases i with
      | zero =>
        simp only [List.getElem?_cons_zero, Option.some.injEq] at hi
        subst hi
        unfold tagged_offsets
        simp [hn, ho]
      | succ j =>
        simp only [List.getElem?_cons_succ] at hi
        have : off ∈ tagged_offsets compat ms (b + 1) :=
          hrest.mpr ⟨j, n, hi, hn, by rw [ho]; congr 1; omega⟩
        unfold tagged_offsets
        split
        · exact List.mem_cons_of_mem _ this
        · exact this

theorem tagged_offsets_pairwise (compat : String) :
    ∀ (l : List FdtNode) (b : Nat),
      (tagged_offsets compat l b).Pairwise (fun x y => x < y) := by
  intro l
  induction l with
  | nil => intro b; exact List.Pairwise.nil
  | cons m ms ih =>
    intro b
    unfold tagged_offsets
    split
    · refine List.Pairwise.cons ?_ (ih (b + 1))
      intro x hx
      obtain ⟨i, n, _, _, ho⟩ := (tagged_offsets_mem compat ms (b + 1) x).mp hx
      rw [ho]; omega
    · exact ih (b + 1)

/-- The iterator either fails with `-1` or returns an offset strictly
greater than its cursor. -/
theorem iterator_advances (fdt : Fdt) (compat : String) (cursor : Int) :
    fdt_node_offset_by_compatible fdt cursor compat = -1 ∨
      cursor < fdt_node_offset_by_compatible fdt cursor compat := by
  by_cases hneg : cursor < 0
  · left
    simp [fdt_node_offset_by_compatible, hneg]
  · obtain ⟨k, rfl⟩ := Int.eq_ofNat_of_zero_le (Int.not_lt.mp hneg)
    rw [offset_by_compatible_nat]
    cases hf : find_index_from (FdtNode.is_compatible compat) (fdt.drop k) (k + 1) with
    | none => left; rfl
    | some i =>
      right
      obtain ⟨pre, n, post, _, _, _, hi⟩ := find_index_from_some _ _ _ _ hf
      simp only []
      omega

/-! ## Claims -/

/-- C1: the extent scan returns the maximum of the extents of the qualifying
regions (tagged `qemu:memory-region`, depth exactly 1, container cell equal
to the canonical node's handle): the result bounds every qualifying extent
from above and, when some region qualifies, is the extent of one of them. -/
theorem scan_returns_maximum (fdt : Fdt) (node_path : NodePath)
    (hu : paths_unique fdt) :
    ∃ v tr, scan_top_level_memory fdt node_path = some (v, tr) ∧
      (∀ n ∈ fdt, qualifies (qemu_fdt_get_phandle fdt node_path) n = true →
        n.extent ≤ v) ∧
      ((∃ n ∈ fdt, qualifies (qemu_fdt_get_phandle fdt node_path) n = true) →
        ∃ n ∈ fdt, qualifies (qemu_fdt_get_phandle fdt node_path) n = true ∧
          v = n.extent) := by
  obtain ⟨v, tr, hscan, _, _, hval⟩ := scan_spec fdt node_path
  have hv := hval hu
  refine ⟨v, tr, hscan, ?_, ?_⟩
  · intro n hn hq
    rw [hv]
    exact aggregate_upper _ fdt 0 n hn hq
  · rintro ⟨m, hm, hqm⟩
    rcases aggregate_attained (qemu_fdt_get_phandle fdt node_path) fdt 0 with h0 | ⟨n, hn, hq, he⟩
    · have hle := aggregate_upper _ fdt 0 m hm hqm
      exact ⟨m, hm, hqm, by rw [hv]; omega⟩
    · exact ⟨n, hn, hq, by rw [hv]; exact he⟩

/-- Witness for C1 on the sample tree, whose maximum is 0x3000. -/
theorem scan_returns_maximum_witness :
    paths_unique sample_tree ∧
      (scan_top_level_memory sample_tree ["memory@0"]).map Prod.fst = some 12288 ∧
      ∃ v tr, scan_top_level_memory sample_tree ["memory@0"] = some (v, tr) ∧
        (∀ n ∈ sample_tree,
          qualifies (qemu_fdt_get_phandle sample_tree ["memory@0"]) n = true →
            n.extent ≤ v) ∧
        ((∃ n ∈ sample_tree,
            qualifies (qemu_fdt_get_phandle sample_tree ["memory@0"]) n = true) →
          ∃ n ∈ sample_tree,
            qualifies (qemu_fdt_get_phandle sample_tree ["memory@0"]) n = true ∧
              v = n.extent) :=
  ⟨by decide, by decide,
    scan_returns_maximum sample_tree ["memory@0"] (by decide)⟩

/-- C2: at requested = 0x4000 and effective = 0x3000 the code reports the
error and then still publishes the effective size 0x3000 and returns through
the session close: neither the reconciliation nor a whole run of
`init_memory` on a tree backing 0x3000 stops at the error. -/
theorem insufficient_memory_is_published :
    reconcile 12288 16384 =
        (["Error: Not enough memory was specified in the device-tree"],
          some 12288,
          [Call.error_report
              "Error: Not enough memory was specified in the device-tree",
            Call.qemu_opt_set_number "memory" "size" 12288]) ∧
      (init_memory id sample_tree 16384).map
          (fun o => (o.mem_created, o.errors, o.published, o.trace.getLast?)) =
        some (12288,
          ["Error: Not enough memory was specified in the device-tree"],
          some 12288, some Call.fdt_init_destroy_fdti) := by
  constructor
  · decide
  · decide

/-- C3: when the effective size is at least the requested size,
reconciliation reports no error and publishes exactly the effective size;
the only call it makes sets the `size` option to the effective size. -/
theorem reconcile_publishes_effective (effective requested : Nat)
    (h : requested ≤ effective) :
    reconcile effective requested =
      ([], some effective, [Call.qemu_opt_set_number "memory" "size" effective]) := by
  unfold reconcile
  have hlt : ¬ effective < requested := by omega
  simp [hlt]

/-- Witness for C3: requested 0x2000, effective 0x3000 publishes 0x3000. -/
theorem reconcile_publishes_effective_witness :
    (8192 : Nat) ≤ 12288 ∧
      reconcile 12288 8192 =
        ([], some 12288, [Call.qemu_opt_set_number "memory" "size" 12288]) :=
  ⟨by decide, reconcile_publishes_effective 12288 8192 (by decide)⟩

/-- C4, as stated, fails: for the 32-bit words (0xffffffff, 0xffffffff, 1)
the accumulator wraps to 0 instead of holding 2^64, and a scan over a tree
whose only region carries that `reg` returns 0. -/
theorem extent_wraps_counterexample :
    (4294967295 : Nat) < 4294967296 ∧ (1 : Nat) < 4294967296 ∧
      reg_extent 4294967295 4294967295 1 = 0 ∧
      reg_extent 4294967295 4294967295 1 ≠
        4294967295 * 4294967296 + 4294967295 + 1 ∧
      (scan_top_level_memory [node_memory, region_wrap] ["memory@0"]).map
        Prod.fst = some 0 := by
  refine ⟨by decide, by decide, by decide, by decide, by decide⟩

/-- C4, amended: for 32-bit words the extent is `word0 * 2^32 + word1 +
word2` reduced modulo 2^64, and it is the exact sum whenever that sum is
below 2^64 (in particular whenever `word0 < 0xffffffff`). -/
theorem extent_is_sum_mod_2_64 (word0 word1 word2 : Nat)
    (h0 : word0 < 4294967296) (h1 : word1 < 4294967296)
    (h2 : word2 < 4294967296) :
    reg_extent word0 word1 word2 =
        (word0 * 4294967296 + word1 + word2) % 18446744073709551616 ∧
      (word0 * 4294967296 + word1 + word2 < 18446744073709551616 →
        reg_extent word0 word1 word2 = word0 * 4294967296 + word1 + word2) ∧
      (word0 < 4294967295 →
        reg_extent word0 word1 word2 = word0 * 4294967296 + word1 + word2) := by
  have he := reg_extent_eq word0 word1 word2 h0 h1
  refine ⟨he, ?_, ?_⟩
  · intro h; rw [he]; exact Nat.mod_eq_of_lt h
  · intro h; rw [he]; apply Nat.mod_eq_of_lt; omega

/-- Witness for amended C4 at the words (0, 0x1000, 0x2000). -/
theorem extent_is_sum_mod_2_64_witness :
    reg_extent 0 4096 8192 = (0 * 4294967296 + 4096 + 8192) % 18446744073709551616 ∧
      (0 * 4294967296 + 4096 + 8192 < 18446744073709551616 →
        reg_extent 0 4096 8192 = 0 * 4294967296 + 4096 + 8192) ∧
      ((0 : Nat) < 4294967295 →
        reg_extent 0 4096 8192 = 0 * 4294967296 + 4096 + 8192) :=
  extent_is_sum_mod_2_64 0 4096 8192 (by decide) (by decide) (by decide)

/-- C5: for 32-bit words the decoded address is `word0 * 2^32 + word1`, it
fits in 64 bits, and (1, 0) decodes to 0x100000000 with extent 0x100000010
for size 0x10. -/
theorem address_decode (word0 word1 : Nat) (h0 : word0 < 4294967296)
    (h1 : word1 < 4294967296) :
    reg_address word0 word1 = word0 * 4294967296 + word1 ∧
      reg_address word0 word1 < 18446744073709551616 ∧
      reg_address 1 0 = 4294967296 ∧ reg_extent 1 0 16 = 4294967312 := by
  have ha := reg_address_eq word0 word1 h0 h1
  refine ⟨ha, ?_, by decide, by decide⟩
  rw [ha]; omega

/-- Witness for C5 at the words (1, 0). -/
theorem address_decode_witness :
    reg_address 1 0 = 1 * 4294967296 + 0 ∧
      reg_address 1 0 < 18446744073709551616 ∧
      reg_address 1 0 = 4294967296 ∧ reg_extent 1 0 16 = 4294967312 :=
  address_decode 1 0 (by decide) (by decide)

/-- C6, as stated, fails: the tagged node `/soc/memory@0` lies at depth 2
and is the canonical memory node the search yields; with it the scan returns
0x1000 (the top-level region's container 1 equals its handle), and after
removing it the handle no longer resolves and the scan returns 0. The same
holds for whole runs of `init_memory` on the two trees. -/
theorem depth_filter_removal_counterexample :
    nested_canonical.is_compatible "qemu:memory-region" = true ∧
      nested_canonical.depth ≠ 1 ∧
      paths_unique nested_canonical_tree ∧
      qemu_devtree_get_node_by_name nested_canonical_tree "memory" =
        some ["soc", "memory@0"] ∧
      (scan_top_level_memory nested_canonical_tree ["soc", "memory@0"]).map
        Prod.fst = some 4096 ∧
      (scan_top_level_memory (nested_canonical_tree.erase nested_canonical)
        ["soc", "memory@0"]).map Prod.fst = some 0 ∧
      (init_memory id nested_canonical_tree 0).map Outcome.mem_created =
        some 4096 ∧
      (init_memory id (nested_canonical_tree.erase nested_canonical) 0).map
        Outcome.mem_created = some 0 := by
  refine ⟨by decide, by decide, by decide, by decide, by decide, by decide,
    by decide, by decide⟩

/-- C6, amended: a node whose depth is not exactly 1 is never counted,
whatever its tag, `reg` and `container`: replacing it by any node with the
same path and handle leaves the result of the scan unchanged, and removing
it leaves the result unchanged provided it is not the canonical memory node
itself. -/
theorem depth_filter (pre post : List FdtNode) (n n' : FdtNode)
    (node_path : NodePath) (hu : paths_unique (pre ++ n :: post))
    (hdepth : n.depth ≠ 1) (hpath : n'.path = n.path)
    (hph : n'.phandle = n.phandle) :
    ∃ v, (scan_top_level_memory (pre ++ n :: post) node_path).map Prod.fst = some v ∧
      (scan_top_level_memory (pre ++ n' :: post) node_path).map Prod.fst = some v ∧
      (n.path ≠ node_path →
        (scan_top_level_memory (pre ++ post) node_path).map Prod.fst = some v) := by
  have hq : ∀ h, qualifies h n = false := by
    intro h; simp [qualifies, hdepth]
  have hq' : ∀ h, qualifies h n' = false := by
    intro h
    have : n'.depth ≠ 1 := by unfold FdtNode.depth at *; rw [hpath]; exact hdepth
    simp [qualifies, this]
  refine ⟨_, scan_value _ node_path hu, ?_, ?_⟩
  · rw [scan_value _ node_path (paths_unique_replace pre post n n' hpath hu),
      get_phandle_replace pre post n n' node_path hpath hph,
      aggregate_skip _ pre post n' 0 (hq' _), aggregate_skip _ pre post n 0 (hq _)]
  · intro hne
    rw [scan_value _ node_path (paths_unique_remove pre post n hu),
      ← get_phandle_remove pre post n node_path hne,
      aggregate_skip _ pre post n 0 (hq _)]

/-- Witness for amended C6: the nested region `/memory@0/region@0`, tagged and with
the canonical handle as container, can be altered or removed without
changing the result 0x3000. -/
theorem depth_filter_witness :
    region_nested.is_compatible "qemu:memory-region" = true ∧
      region_nested.container = qemu_fdt_get_phandle sample_tree ["memory@0"] ∧
      ∃ v, (scan_top_level_memory
            ([node_memory] ++ region_nested :: [region_a, region_b, region_other])
            ["memory@0"]).map Prod.fst = some v ∧
        (scan_top_level_memory
            ([node_memory] ++ { region_nested with props := [("reg", [9, 9, 9])] } ::
              [region_a, region_b, region_other])
            ["memory@0"]).map Prod.fst = some v ∧
        (region_nested.path ≠ ["memory@0"] →
          (scan_top_level_memory
            ([node_memory] ++ [region_a, region_b, region_other])
            ["memory@0"]).map Prod.fst = some v) :=
  ⟨by decide, by decide,
    depth_filter [node_memory] [region_a, region_b, region_other] region_nested
      { region_nested with props := [("reg", [9, 9, 9])] } ["memory@0"]
      (by decide) (by decide) rfl rfl⟩

/-- C7: a depth-1 tagged node whose container cell differs from the canonical
node's handle is excluded (replacing it by a node with the same path, handle
and container, whatever its `reg`, or removing it, leaves the result
unchanged), while one whose container equals the handle is included (its
extent is bounded by the result). -/
theorem container_filter (pre post : List FdtNode) (n n' : FdtNode)
    (node_path : NodePath) (hu : paths_unique (pre ++ n :: post))
    (htag : n.is_compatible "qemu:memory-region" = true) (hdepth : n.depth = 1)
    (hpath : n'.path = n.path) (hph : n'.phandle = n.phandle)
    (hcont : n'.container = n.container) :
    ∃ v, (scan_top_level_memory (pre ++ n :: post) node_path).map Prod.fst = some v ∧
      (n.container ≠ qemu_fdt_get_phandle (pre ++ n :: post) node_path →
        (scan_top_level_memory (pre ++ n' :: post) node_path).map Prod.fst = some v ∧
        (n.path ≠ node_path →
          (scan_top_level_memory (pre ++ post) node_path).map Prod.fst = some v)) ∧
      (n.container = qemu_fdt_get_phandle (pre ++ n :: post) node_path →
        n.extent ≤ v) := by
  refine ⟨_, scan_value _ node_path hu, ?_, ?_⟩
  · intro hne
    have hq : qualifies (qemu_fdt_get_phandle (pre ++ n :: post) node_path) n = false := by
      simp [qualifies, hne]
    have hq' : qualifies (qemu_fdt_get_phandle (pre ++ n :: post) node_path) n' = false := by
      simp [qualifies, hcont, hne]
    constructor
    · rw [scan_value _ node_path (paths_unique_replace pre post n n' hpath hu),
        get_phandle_replace pre post n n' node_path hpath hph,
        aggregate_skip _ pre post n' 0 hq', aggregate_skip _ pre post n 0 hq]
    · intro hp
      rw [scan_value _ node_path (paths_unique_remove pre post n hu),
        ← get_phandle_remove pre post n node_path hp,
        aggregate_skip _ pre post n 0 hq]
  · intro heq
    apply aggregate_upper _ _ 0 n (by simp)
    simp [qualifies, htag, hdepth, heq]

/-- Witness for C7 with canonical handle 1: the region with container 2 can
be altered or removed without changing the result, and the region with
container 1 is counted. -/
theorem container_filter_witness :
    qemu_fdt_get_phandle sample_tree ["memory@0"] = 1 ∧
      region_other.container = 2 ∧ region_b.container = 1 ∧
      (∃ v, (scan_top_level_memory
            ([node_memory, region_nested, region_a, region_b] ++ region_other :: [])
            ["memory@0"]).map Prod.fst = some v ∧
        (region_other.container ≠ qemu_fdt_get_phandle
            ([node_memory, region_nested, region_a, region_b] ++ region_other :: [])
            ["memory@0"] →
          (scan_top_level_memory
              ([node_memory, region_nested, region_a, region_b] ++
                { region_other with
                  props := [("container", [2]), ("reg", [7, 7, 7])] } :: [])
              ["memory@0"]).map Prod.fst = some v ∧
          (region_other.path ≠ ["memory@0"] →
            (scan_top_level_memory
              ([node_memory, region_nested, region_a, region_b] ++ [])
              ["memory@0"]).map Prod.fst = some v)) ∧
        (region_other.container = qemu_fdt_get_phandle
            ([node_memory, region_nested, region_a, region_b] ++ region_other :: [])
            ["memory@0"] → region_other.extent ≤ v)) ∧
      (scan_top_level_memory sample_tree ["memory@0"]).map Prod.fst = some 12288 ∧
      region_b.extent = 12288 ∧ region_other.extent = 45056 :=
  ⟨by decide, by decide, by decide,
    container_filter [node_memory, region_nested, region_a, region_b] []
      region_other
      { region_other with props := [("container", [2]), ("reg", [7, 7, 7])] }
      ["memory@0"] (by decide) (by decide) (by decide) rfl rfl (by decide),
    by decide, by decide, by decide⟩

/-- C8: the result of the scan does not depend on the order in which the
nodes are visited: any permutation of the tree gives the same effective
size. -/
theorem scan_order_independent (fdt fdt' : Fdt) (node_path : NodePath)
    (hu : paths_unique fdt) (hp : fdt.Perm fdt') :
    ∃ v, (scan_top_level_memory fdt node_path).map Prod.fst = some v ∧
      (scan_top_level_memory fdt' node_path).map Prod.fst = some v := by
  have hu' : paths_unique fdt' := by
    unfold paths_unique at *
    exact (List.Perm.nodup_iff (hp.map _)).mp hu
  refine ⟨_, scan_value fdt node_path hu, ?_⟩
  rw [scan_value fdt' node_path hu']
  have hh : qemu_fdt_get_phandle fdt' node_path = qemu_fdt_get_phandle fdt node_path := by
    unfold qemu_fdt_get_phandle
    rw [findnode_perm fdt fdt' node_path hu hp]
  rw [hh, aggregate_perm _ hp 0]

/-- Witness for C8: the regions (0, 0x1000) and (0x1000, 0x2000) give 0x3000
in either order. -/
theorem scan_order_independent_witness :
    (scan_top_level_memory [node_memory, region_a, region_b] ["memory@0"]).map
        Prod.fst = some 12288 ∧
      (scan_top_level_memory [node_memory, region_b, region_a] ["memory@0"]).map
        Prod.fst = some 12288 ∧
      ∃ v, (scan_top_level_memory [node_memory, region_a, region_b]
            ["memory@0"]).map Prod.fst = some v ∧
        (scan_top_level_memory [node_memory, region_b, region_a]
            ["memory@0"]).map Prod.fst = some v :=
  ⟨by decide, by decide,
    scan_order_independent [node_memory, region_a, region_b]
      [node_memory, region_b, region_a] ["memory@0"] (by decide)
      (List.Perm.cons _ (List.Perm.swap _ _ _))⟩

/-- C9: on every path of `init_memory`, whatever the tree, the instantiation
framework and the requested size (sufficient or not), the function returns
and its call trace holds exactly one session open and exactly one session
close, the close being the last call. -/
theorem session_closed_once (fdt_generic_create_machine : Fdt → Fdt) (fdt : Fdt)
    (ram_size : Nat) :
    ∃ o, init_memory fdt_generic_create_machine fdt ram_size = some o ∧
      o.trace.count Call.fdt_generic_create_machine = 1 ∧
      o.trace.count Call.fdt_init_destroy_fdti = 1 ∧
      o.trace.getLast? = some Call.fdt_init_destroy_fdti := by
  obtain ⟨fdt1, p, t_norm, v, t_scan, _, _, hinit, hnorm, hreads⟩ :=
    init_memory_spec fdt_generic_create_machine fdt ram_size
  have hrec := reconcile_calls v ram_size
  refine ⟨_, hinit, ?_, ?_, ?_⟩
  · simp only [List.count_append,
      count_eq_zero_of_all t_norm Call.fdt_generic_create_machine hnorm rfl,
      count_eq_zero_of_all t_scan Call.fdt_generic_create_machine hreads rfl,
      count_eq_zero_of_all _ Call.fdt_generic_create_machine hrec rfl]
    decide
  · simp only [List.count_append,
      count_eq_zero_of_all t_norm Call.fdt_init_destroy_fdti hnorm rfl,
      count_eq_zero_of_all t_scan Call.fdt_init_destroy_fdti hreads rfl,
      count_eq_zero_of_all _ Call.fdt_init_destroy_fdti hrec rfl]
    decide
  · exact List.getLast?_concat _

/-- C10: without an `hw-dtb` option the code reports the error and then
calls `init_memory` with the `NULL` tree; only a failed load of a given
description ends in `exit(1)` before `init_memory`. -/
theorem missing_hw_dtb_reaches_init_memory
    (load_device_tree : String → Option Fdt) (ram_size : Nat) :
    arm_generic_fdt_init none load_device_tree ram_size =
        [InitStep.error_report
            "Error: Unable to load Device Tree, the option hw-dtb must be specified",
          InitStep.init_memory none ram_size] ∧
      arm_generic_fdt_init (some "board.dtb") (fun _ => none) ram_size =
        [InitStep.error_report "Error: Unable to load Device Tree board.dtb",
          InitStep.exit 1] := by
  constructor
  · rfl
  · simp [arm_generic_fdt_init]

/-- C11: normalization is idempotent: the find-or-create loop always exits,
and run again on the tree it produced (with any requested size) it returns
the same path, leaves that tree unchanged and makes a single search call, so
no second memory node is created. -/
theorem normalization_idempotent (fuel : Nat) (fdt : Fdt)
    (ram_size ram_size' : Nat) :
    ∃ fdt1 p tr, ensure_loop (fuel + 2) fdt ram_size = some (fdt1, p, tr) ∧
      ensure_loop (fuel + 2) fdt1 ram_size' =
        some (fdt1, p, [Call.qemu_devtree_get_node_by_name "memory"]) ∧
      body_runs [Call.qemu_devtree_get_node_by_name "memory"] = 0 := by
  obtain ⟨fdt1, p, tr, hens, hfind, _⟩ := ensure_loop_spec fuel fdt ram_size
  exact ⟨fdt1, p, tr, hens, ensure_loop_found (fuel + 1) fdt1 ram_size' p hfind, rfl⟩

/-- C12, as stated, fails: in a tree whose only memory-named node is
`/soc/memory@0` the loop yields that nested path, of depth 2, and adds no
top-level node. -/
theorem nested_memory_counterexample :
    ensure_loop 2 nested_memory_tree 4096 =
        some (nested_memory_tree, ["soc", "memory@0"],
          [Call.qemu_devtree_get_node_by_name "memory"]) ∧
      (["soc", "memory@0"] : NodePath).length = 2 ∧
      ∀ n ∈ nested_memory_tree,
        ¬ (n.depth = 1 ∧ name_matches "memory" n.name = true) := by
  refine ⟨by decide, by decide, by decide⟩

/-- C12, amended: the path the loop yields names a node of the resulting tree
whose name is `memory` or `memory@<addr>`; that node is at depth exactly 1
when the loop had to create it, that is when no node matched before, and the
path is then `/memory@0`. -/
theorem normalization_yields_memory_node (fuel : Nat) (fdt : Fdt)
    (ram_size : Nat) :
    ∃ fdt1 p tr, ensure_loop (fuel + 2) fdt ram_size = some (fdt1, p, tr) ∧
      ∃ n ∈ fdt1, n.path = p ∧ name_matches "memory" n.name = true ∧
        (qemu_devtree_get_node_by_name fdt "memory" = none →
          p = ["memory@0"] ∧ n.depth = 1) := by
  cases h : qemu_devtree_get_node_by_name fdt "memory" with
  | some p =>
    refine ⟨fdt, p, _, ensure_loop_found (fuel + 1) fdt ram_size p h, ?_⟩
    unfold qemu_devtree_get_node_by_name at h
    cases hf : fdt.find? (fun n => name_matches "memory" n.name) with
    | none => rw [hf] at h; cases h
    | some n =>
      rw [hf] at h
      refine ⟨n, List.mem_of_find?_eq_some hf, by simpa using h, ?_, ?_⟩
      · exact @List.find?_some _ (fun n => name_matches "memory" n.name) n fdt hf
      · intro hc; cases hc
  | none =>
    refine ⟨_, _, _, ensure_loop_created fuel fdt ram_size h, ?_⟩
    rw [seed_tree_eq]
    have hm : name_matches "memory" "memory@0" = true := by decide
    refine ⟨_, List.mem_cons_self _ _, rfl, ?_, ?_⟩
    · simpa [FdtNode.name] using hm
    · intro _
      exact ⟨rfl, rfl⟩

/-- C13, as stated, fails: for the requested size 2^32 on the empty tree the
seed node's size cell reads back 0, not 2^32. -/
theorem seed_size_truncated_counterexample :
    qemu_devtree_get_node_by_name [] "memory" = none ∧
      (ensure_loop 2 [] 4294967296).map (fun r => r.1) =
        some [{ path := ["memory@0"], compatible := [], phandle := 0,
                props := [("reg", [0, 0])] }] ∧
      qemu_fdt_getprop_cell (seed_tree [] 4294967296) ["memory@0"] "reg" 1 = 0 ∧
      qemu_fdt_getprop_cell (seed_tree [] 4294967296) ["memory@0"] "reg" 1 ≠
        4294967296 := by
  refine ⟨by decide, by decide, by decide, by decide⟩

/-- C13, amended: when no node matches the memory naming pattern the loop
adds the node `/memory@0` in front of the tree and sets its `reg` to the two
cells `(0, requested_size mod 2^32)`; the size cell read back equals the
requested size exactly when that size is below 2^32. -/
theorem seed_node_created (fuel : Nat) (fdt : Fdt) (ram_size : Nat)
    (h : qemu_devtree_get_node_by_name fdt "memory" = none) :
    ∃ tr, ensure_loop (fuel + 2) fdt ram_size =
        some ({ path := ["memory@0"], compatible := [], phandle := 0,
                props := [("reg", [0, ram_size % 4294967296])] } :: fdt,
          ["memory@0"], tr) ∧
      qemu_fdt_getprop_cell (seed_tree fdt ram_size) ["memory@0"] "reg" 0 = 0 ∧
      qemu_fdt_getprop_cell (seed_tree fdt ram_size) ["memory@0"] "reg" 1 =
        ram_size % 4294967296 ∧
      (qemu_fdt_getprop_cell (seed_tree fdt ram_size) ["memory@0"] "reg" 1 =
        ram_size ↔ ram_size < 4294967296) := by
  have hcell0 :
      qemu_fdt_getprop_cell (seed_tree fdt ram_size) ["memory@0"] "reg" 0 = 0 := by
    rw [seed_tree_eq]
    simp [qemu_fdt_getprop_cell, findnode, List.find?, FdtNode.cell, List.lookup]
  have hcell1 :
      qemu_fdt_getprop_cell (seed_tree fdt ram_size) ["memory@0"] "reg" 1 =
        ram_size % 4294967296 := by
    rw [seed_tree_eq]
    simp [qemu_fdt_getprop_cell, findnode, List.find?, FdtNode.cell, List.lookup]
  refine ⟨[Call.qemu_devtree_get_node_by_name "memory", Call.qemu_fdt_add_subnode ["memory@0"],
      Call.qemu_fdt_setprop_cells ["memory@0"] "reg" [0, ram_size],
      Call.qemu_devtree_get_node_by_name "memory"], ?_, hcell0, hcell1, ?_⟩
  · rw [ensure_loop_created fuel fdt ram_size h, seed_tree_eq]
  · rw [hcell1]
    constructor
    · intro he
      have := Nat.mod_lt ram_size (show 0 < 4294967296 by decide)
      omega
    · intro hlt
      exact Nat.mod_eq_of_lt hlt

/-- Witness for amended C13 on the empty tree with requested size 0x2000. -/
theorem seed_node_created_witness :
    qemu_devtree_get_node_by_name [] "memory" = none ∧
      ∃ tr, ensure_loop (0 + 2) [] 8192 =
          some ({ path := ["memory@0"], compatible := [], phandle := 0,
                  props := [("reg", [0, 8192 % 4294967296])] } :: [],
            ["memory@0"], tr) ∧
        qemu_fdt_getprop_cell (seed_tree [] 8192) ["memory@0"] "reg" 0 = 0 ∧
        qemu_fdt_getprop_cell (seed_tree [] 8192) ["memory@0"] "reg" 1 =
          8192 % 4294967296 ∧
        (qemu_fdt_getprop_cell (seed_tree [] 8192) ["memory@0"] "reg" 1 = 8192 ↔
          8192 < 4294967296) :=
  ⟨by decide, seed_node_created 0 [] 8192 (by decide)⟩

/-- C14: when the tree already holds a node matching the memory naming
pattern the find-or-create step is read-only: the tree it returns is the
tree it was given, the body of the loop is never entered, and the only call
is the search. -/
theorem normalization_read_only (fuel : Nat) (fdt : Fdt) (ram_size : Nat)
    (h : ∃ n ∈ fdt, name_matches "memory" n.name = true) :
    ∃ p, ensure_loop (fuel + 1) fdt ram_size =
        some (fdt, p, [Call.qemu_devtree_get_node_by_name "memory"]) ∧
      body_runs [Call.qemu_devtree_get_node_by_name "memory"] = 0 := by
  obtain ⟨n, hn, hm⟩ := h
  cases hf : fdt.find? (fun n => name_matches "memory" n.name) with
  | none =>
    rw [List.find?_eq_none] at hf
    exact absurd hm (hf n hn)
  | some m =>
    refine ⟨m.path, ensure_loop_found fuel fdt ram_size m.path ?_, rfl⟩
    simp [qemu_devtree_get_node_by_name, hf]

/-- Witness for C14 on the sample tree, which holds `/memory@0`. -/
theorem normalization_read_only_witness :
    (∃ n ∈ sample_tree, name_matches "memory" n.name = true) ∧
      ∃ p, ensure_loop (1 + 1) sample_tree 8192 =
          some (sample_tree, p, [Call.qemu_devtree_get_node_by_name "memory"]) ∧
        body_runs [Call.qemu_devtree_get_node_by_name "memory"] = 0 :=
  ⟨⟨node_memory, by decide, by decide⟩,
    normalization_read_only 1 sample_tree 8192
      ⟨node_memory, by decide, by decide⟩⟩

/-- C15, as stated, fails: on the empty tree with requested size 0x1000 the
normalizer seeds `/memory@0` with size 0x1000, no region qualifies, and the
effective size computed is 0, not 0x1000. -/
theorem seed_not_read_back_counterexample :
    (init_memory id [] 4096).map (fun o => (o.fdt, o.node_path, o.mem_created)) =
      some ([{ path := ["memory@0"], compatible := [], phandle := 0,
               props := [("reg", [0, 4096])] }],
        ["memory@0"], 0) ∧
      qemu_fdt_getprop_cell (seed_tree [] 4096) ["memory@0"] "reg" 1 = 4096 ∧
      (∀ n ∈ seed_tree [] 4096,
        qualifies (qemu_fdt_get_phandle (seed_tree [] 4096) ["memory@0"]) n =
          false) ∧
      (scan_top_level_memory (seed_tree [] 4096) ["memory@0"]).map Prod.fst ≠
        some 4096 := by
  refine ⟨by decide, by decide, by decide, by decide⟩

/-- C15, amended: when no region qualifies the scan returns 0, the initial
value of the accumulator, whatever the seed node holds; hence every run of
`init_memory` whose tree at scan time is such a tree computes the effective
size 0, whatever the framework did before and whatever size was
requested. -/
theorem scan_without_regions_is_zero (fdt : Fdt) (node_path : NodePath)
    (hu : paths_unique fdt)
    (hnone : ∀ n ∈ fdt,
      qualifies (qemu_fdt_get_phandle fdt node_path) n = false) :
    (scan_top_level_memory fdt node_path).map Prod.fst = some 0 ∧
      ∀ (fdt_generic_create_machine : Fdt → Fdt) (fdt0 : Fdt) (ram_size : Nat)
        (o : Outcome),
        init_memory fdt_generic_create_machine fdt0 ram_size = some o →
        o.fdt = fdt → o.node_path = node_path → o.mem_created = 0 := by
  have hzero : (scan_top_level_memory fdt node_path).map Prod.fst = some 0 := by
    rw [scan_value fdt node_path hu]
    rcases aggregate_attained (qemu_fdt_get_phandle fdt node_path) fdt 0 with
      h | ⟨n, hn, hq, _⟩
    · rw [h]
    · rw [hnone n hn] at hq
      cases hq
  refine ⟨hzero, ?_⟩
  intro cm fdt0 ram_size o hinit hfdt hpath
  obtain ⟨fdt1, p, t_norm, v, t_scan, _, hscan, hinit', _, _⟩ :=
    init_memory_spec cm fdt0 ram_size
  rw [hinit'] at hinit
  have ho := Option.some.inj hinit
  subst ho
  simp only [] at hfdt hpath
  rw [hfdt, hpath] at hscan
  rw [hscan] at hzero
  simpa using hzero

/-- Witness for amended C15: the seeded tree for requested size 0x1000, which
is the tree `init_memory` scans when started on the empty tree. -/
theorem scan_without_regions_is_zero_witness :
    paths_unique (seed_tree [] 4096) ∧
      (∀ n ∈ seed_tree [] 4096,
        qualifies (qemu_fdt_get_phandle (seed_tree [] 4096) ["memory@0"]) n =
          false) ∧
      (init_memory id [] 4096).map (fun o => (o.fdt, o.node_path)) =
        some (seed_tree [] 4096, ["memory@0"]) ∧
      (scan_top_level_memory (seed_tree [] 4096) ["memory@0"]).map Prod.fst =
        some 0 ∧
      ∀ (fdt_generic_create_machine : Fdt → Fdt) (fdt0 : Fdt) (ram_size : Nat)
        (o : Outcome),
        init_memory fdt_generic_create_machine fdt0 ram_size = some o →
        o.fdt = seed_tree [] 4096 → o.node_path = ["memory@0"] →
        o.mem_created = 0 :=
  ⟨by decide, by decide, by decide,
    scan_without_regions_is_zero (seed_tree [] 4096) ["memory@0"]
      (by decide) (by decide)⟩

/-- C16: the session brackets the scan. Every run of `init_memory` returns
with a trace of the form normalizer calls, session open, scan reads,
reconciliation calls (the publish among them), session close; and every tree
read of the scan found anywhere in the trace has the open before it and the
close after it. -/
theorem session_brackets_scan (fdt_generic_create_machine : Fdt → Fdt) (fdt : Fdt)
    (ram_size : Nat) :
    ∃ o t_norm t_scan t_rec,
      init_memory fdt_generic_create_machine fdt ram_size = some o ∧
      o.trace = t_norm ++ [Call.fdt_generic_create_machine] ++ t_scan ++ t_rec ++
        [Call.fdt_init_destroy_fdti] ∧
      (∀ c ∈ t_norm, c.is_normalize = true) ∧
      (∀ c ∈ t_scan, c.is_scan_read = true) ∧
      (∀ c ∈ t_rec, c.is_reconcile = true) ∧
      Call.qemu_opt_set_number "memory" "size" o.mem_created ∈ t_rec ∧
      t_scan ≠ [] ∧
      (∀ (pre post : List Call) (c : Call), o.trace = pre ++ c :: post →
        c.is_scan_read = true →
          Call.fdt_generic_create_machine ∈ pre ∧ Call.fdt_init_destroy_fdti ∈ post) := by
  obtain ⟨fdt1, p, t_norm, v, t_scan, _, hscan, hinit, hnorm, hreads⟩ :=
    init_memory_spec fdt_generic_create_machine fdt ram_size
  obtain ⟨v', t_scan', hscan', _, hres, _⟩ :=
    scan_spec (fdt_generic_create_machine fdt1) p
  have hrec := reconcile_calls v ram_size
  refine ⟨_, t_norm, t_scan, (reconcile v ram_size).2.2, hinit, rfl, hnorm,
    hreads, hrec, ?_, ?_, ?_⟩
  · simp [reconcile]
  · intro hnil
    rw [hscan] at hscan'
    have ht : t_scan' = t_scan := by
      have := Option.some.inj hscan'
      exact (Prod.mk.inj this).2.symm
    rw [ht, hnil] at hres
    simp [iterator_results] at hres
  · intro pre post c heq hc
    constructor
    · have hno : ∀ c ∈ t_norm, c.is_scan_read = false := by
        intro c hc
        have := hnorm c hc
        cases c <;> simp_all [Call.is_normalize, Call.is_scan_read]
      apply open_before_read t_norm
        (t_scan ++ (reconcile v ram_size).2.2 ++ [Call.fdt_init_destroy_fdti]) hno pre post c
        _ hc
      rw [← heq]
      simp
    · apply close_after_read
        (t_norm ++ [Call.fdt_generic_create_machine] ++ t_scan ++ (reconcile v ram_size).2.2)
        pre post c Call.fdt_init_destroy_fdti heq
      intro hcd
      rw [hcd] at hc
      cases hc

/-- C17: the find-or-create loop terminates and creates at most once: with
any fuel of at least two iterations it exits; its body (add node, set `reg`)
runs zero times when the first search succeeds and exactly once otherwise;
and on exit the search succeeds with the returned path. -/
theorem find_or_create_terminates (fuel : Nat) (fdt : Fdt) (ram_size : Nat) :
    ∃ fdt1 p tr, ensure_loop (fuel + 2) fdt ram_size = some (fdt1, p, tr) ∧
      body_runs tr =
        (if (qemu_devtree_get_node_by_name fdt "memory").isSome then 0 else 1) ∧
      tr.count (Call.qemu_fdt_setprop_cells ["memory@0"] "reg" [0, ram_size]) =
        body_runs tr ∧
      qemu_devtree_get_node_by_name fdt1 "memory" = some p := by
  cases h : qemu_devtree_get_node_by_name fdt "memory" with
  | some p =>
    exact ⟨fdt, p, _, ensure_loop_found (fuel + 1) fdt ram_size p h, rfl,
      by simp [body_runs], h⟩
  | none =>
    exact ⟨_, _, _, ensure_loop_created fuel fdt ram_size h, rfl,
      by simp [body_runs], get_node_by_name_seed_tree fdt ram_size⟩

/-- C18: the code counts a depth-1 region that has no `container` property
when the canonical node carries no handle. On the tree holding only such a
region the normalizer creates `/memory@0` without a handle, the container
cell and the handle both read 0, the comparison of line 96 does not take the
`continue`, and the region's extent 0x1000 becomes the effective size; the
same tree without the region gives 0. -/
theorem loose_region_is_counted :
    region_loose.props.lookup "container" = none ∧
      region_loose.depth = 1 ∧
      region_loose.is_compatible "qemu:memory-region" = true ∧
      region_loose.extent = 4096 ∧
      (init_memory id [region_loose] 0).map
          (fun o => (o.node_path, qemu_fdt_get_phandle o.fdt o.node_path,
            o.mem_created)) =
        some (["memory@0"], 0, 4096) ∧
      (init_memory id [] 0).map Outcome.mem_created = some 0 ∧
      qemu_fdt_get_phandle loose_tree ["memory@0"] = 0 ∧
      (scan_top_level_memory loose_tree ["memory@0"]).map Prod.fst = some 4096 ∧
      (scan_top_level_memory (loose_tree.erase region_loose)
        ["memory@0"]).map Prod.fst = some 0 := by
  refine ⟨by decide, by decide, by decide, by decide, by decide, by decide,
    by decide, by decide, by decide⟩

/-- C19: the scan loop terminates and examines each tagged node once. For
every tree the loop started from cursor 0 returns; the offsets its iterator
returned are exactly the offsets of the nodes tagged `qemu:memory-region`,
each once and in strictly increasing order, all positive, followed by the
single failing result `-1` at which the loop stops; the iterator of the
model meets the precondition (it fails or moves strictly forward). -/
theorem scan_visits_each_tagged_node_once (fdt : Fdt) (node_path : NodePath) :
    ∃ v tr, scan_top_level_memory fdt node_path = some (v, tr) ∧
      iterator_results tr =
        tagged_offsets "qemu:memory-region" fdt 1 ++ [-1] ∧
      (tagged_offsets "qemu:memory-region" fdt 1).Pairwise (fun x y => x < y) ∧
      (tagged_offsets "qemu:memory-region" fdt 1).Nodup ∧
      (∀ off : Int, off ∈ tagged_offsets "qemu:memory-region" fdt 1 ↔
        ∃ n, fdt_node_at fdt off = some n ∧
          n.is_compatible "qemu:memory-region" = true) ∧
      (∀ off ∈ tagged_offsets "qemu:memory-region" fdt 1, 0 < off) ∧
      (∀ cursor : Int,
        fdt_node_offset_by_compatible fdt cursor "qemu:memory-region" = -1 ∨
          cursor < fdt_node_offset_by_compatible fdt cursor "qemu:memory-region") := by
  obtain ⟨v, tr, hscan, _, hres, _⟩ := scan_spec fdt node_path
  have hpw := tagged_offsets_pairwise "qemu:memory-region" fdt 1
  refine ⟨v, tr, hscan, hres, hpw, ?_, ?_, ?_,
    iterator_advances fdt "qemu:memory-region"⟩
  · exact hpw.imp (fun h => Int.ne_of_lt h)
  · intro off
    rw [tagged_offsets_mem]
    constructor
    · rintro ⟨i, n, hi, hn, ho⟩
      refine ⟨n, ?_, hn⟩
      unfold fdt_node_at
      have h1 : ¬ off ≤ 0 := by omega
      have h2 : (off - 1).toNat = i := by omega
      simp only [h1, if_false, h2, hi]
    · rintro ⟨n, hat, hn⟩
      unfold fdt_node_at at hat
      split at hat
      · cases hat
      · rename_i hpos
        exact ⟨(off - 1).toNat, n, hat, hn, by omega⟩
  · intro off hoff
    obtain ⟨i, n, _, _, ho⟩ := (tagged_offsets_mem _ _ _ _).mp hoff
    omega

end ArmGenericFdt
